import Mathlib

/-!
Verification of the hybrid retrieval engine of the golf-rules QA
repository (`src/rag/retriever.py`, `src/rag/claude_qa.py`,
`src/rag/embeddings.py`).  Python strings are modelled as `List Char`,
Python floats as exact numbers (`ℚ` generically, `ℝ` where `math.log`
or `math.sqrt` is involved).  Stateful code (the retriever's TF-IDF
cache and its ChromaDB collection) is modelled by explicit state
passing, and Python exceptions by `Option`.
-/

namespace GolfRQA

/-- A Python string, modelled as its character list. -/
abbrev Str := List Char

/-- Worker for Python `str.split()`: walks the characters accumulating the
current word (reversed); whitespace ends a word, runs of whitespace and
leading/trailing whitespace produce no empty words. -/
def splitWSGo : List Char → List Char → List Str
  | [], acc => if acc.isEmpty then [] else [acc.reverse]
  | c :: cs, acc =>
      if c.isWhitespace then
        if acc.isEmpty then splitWSGo cs [] else acc.reverse :: splitWSGo cs []
      else splitWSGo cs (c :: acc)

/-- Python `text.split()` (no separator argument): split on runs of
whitespace, discarding empty pieces. -/
def pySplit (cs : Str) : List Str := splitWSGo cs []

/-- Python `' '.join(words)`. -/
def joinWords : List Str → Str
  | [] => []
  | [w] => w
  | w :: ws => w ++ ' ' :: joinWords ws

/-- A word as produced by `pySplit`: non-empty and whitespace-free. -/
def goodWord (w : Str) : Prop := w ≠ [] ∧ ∀ c ∈ w, c.isWhitespace = false

/-- The loop of `HybridRetriever.chunk_text`
(`for i in range(0, len(words), step)` with `chunk = ' '.join(words[i:i+chunk_size])`,
appending `chunk` when it is a non-empty string).  One call per loop
iteration; the list argument is `words[i:]`, so the slice `words[i:i+chunk_size]`
is its `take chunk_size` and the next iteration receives `words[i+step:]`.
For `step ≥ 1` that is `drop (step - 1)` of the tail, as written here.
The loop runs at most `len(words)` times, which bounds the structural
`fuel` argument; `chunk_text` supplies `fuel := words.length`. -/
def chunkGo (chunk_size step : Nat) : Nat → List Str → List Str
  | _, [] => []
  | 0, _ :: _ => []
  | fuel + 1, w :: ws =>
      let chunk := joinWords (List.take chunk_size (w :: ws))
      let rest := chunkGo chunk_size step fuel (List.drop (step - 1) ws)
      if chunk.isEmpty then rest else chunk :: rest

/-- `HybridRetriever.chunk_text` (src/rag/retriever.py lines 62-83).
`words = text.split()`, then the loop `for i in range(0, len(words), chunk_size - overlap)`.
In Python, `range` with a negative step over `[0, len)` is empty (the loop body
never runs and `[]` is returned), while step `0` raises `ValueError` — modelled
as `none`.  There is no `InvalidConfiguration` guard in the source. -/
def chunk_text (text : Str) (chunk_size overlap : Nat) : Option (List Str) :=
  let words := pySplit text
  if chunk_size < overlap then some []
  else if chunk_size = overlap then none
  else some (chunkGo chunk_size (chunk_size - overlap) words.length words)

/-- The same loop as `chunkGo`, recording the word windows
`words[i:i+chunk_size]` themselves rather than their joined strings. -/
def chunkWindowsGo (chunk_size step : Nat) : Nat → List Str → List (List Str)
  | _, [] => []
  | 0, _ :: _ => []
  | fuel + 1, w :: ws =>
      List.take chunk_size (w :: ws) ::
        chunkWindowsGo chunk_size step fuel (List.drop (step - 1) ws)

/-- The chunk-count formula claimed by the specification (§8):
`ceil(max(L - O, 0) / (C - O))`, as a natural-number computation. -/
def specChunkCount (L C O : Nat) : Nat := (max (L - O) 0 + (C - O) - 1) / (C - O)

theorem isEmpty_false_of_ne_nil {α : Type} {l : List α} (h : l ≠ []) :
    l.isEmpty = false := by
  cases l with
  | nil => exact absurd rfl h
  | cons a t => rfl

theorem splitWSGo_good :
    ∀ (cs : List Char) (acc : List Char),
      (∀ c ∈ acc, c.isWhitespace = false) →
      ∀ w ∈ splitWSGo cs acc, goodWord w := by
  intro cs
  induction cs with
  | nil =>
      intro acc hacc w hw
      by_cases h : acc = []
      · subst h; simp [splitWSGo] at hw
      · rw [splitWSGo, isEmpty_false_of_ne_nil h] at hw
        simp at hw
        subst hw
        refine ⟨by simpa using h, ?_⟩
        intro c hc
        exact hacc c (List.mem_reverse.mp hc)
  | cons c cs ih =>
      intro acc hacc w hw
      rw [splitWSGo] at hw
      by_cases hc : c.isWhitespace
      · rw [if_pos hc] at hw
        by_cases h : acc = []
        · subst h; simp at hw
          exact ih [] (by simp) w hw
        · rw [isEmpty_false_of_ne_nil h] at hw
          simp at hw
          rcases hw with hw | hw
          · subst hw
            refine ⟨by simpa using h, ?_⟩
            intro x hx
            exact hacc x (List.mem_reverse.mp hx)
          · exact ih [] (by simp) w hw
      · rw [if_neg hc] at hw
        refine ih (c :: acc) ?_ w hw
        intro x hx
        rcases List.mem_cons.mp hx with hx | hx
        · subst hx; simpa using hc
        · exact hacc x hx

theorem pySplit_good (cs : Str) : ∀ w ∈ pySplit cs, goodWord w :=
  splitWSGo_good cs [] (by simp)

theorem splitWSGo_word :
    ∀ (w : Str) (cs : List Char) (acc : List Char),
      (∀ c ∈ w, c.isWhitespace = false) →
      splitWSGo (w ++ cs) acc = splitWSGo cs (w.reverse ++ acc) := by
  intro w
  induction w with
  | nil => intro cs acc _; simp
  | cons c w ih =>
      intro cs acc hgood
      have hc : c.isWhitespace = false := hgood c (by simp)
      rw [List.cons_append, splitWSGo, hc]
      simp only [Bool.false_eq_true, if_false]
      rw [ih cs (c :: acc) (fun x hx => hgood x (List.mem_cons_of_mem c hx))]
      simp

theorem pySplit_joinWords :
    ∀ (ws : List Str), (∀ w ∈ ws, goodWord w) → pySplit (joinWords ws) = ws := by
  intro ws
  induction ws with
  | nil => intro _; rfl
  | cons w ws ih =>
      intro hgood
      have hw : goodWord w := hgood w (by simp)
      cases ws with
      | nil =>
          show splitWSGo (joinWords [w]) [] = [w]
          rw [joinWords]
          rw [show (w : Str) = w ++ [] from (List.append_nil w).symm, splitWSGo_word w [] [] hw.2]
          rw [splitWSGo, List.append_nil,
            isEmpty_false_of_ne_nil (by simpa using hw.1)]
          simp
      | cons v vs =>
          show splitWSGo (joinWords (w :: v :: vs)) [] = w :: v :: vs
          rw [show joinWords (w :: v :: vs) = w ++ ' ' :: joinWords (v :: vs) from rfl,
            splitWSGo_word w _ [] hw.2, List.append_nil, splitWSGo]
          have hws : (' ' : Char).isWhitespace = true := by decide
          rw [hws]
          simp only [if_true]
          rw [isEmpty_false_of_ne_nil (by simpa using hw.1)]
          simp only [Bool.false_eq_true, if_false, List.reverse_reverse]
          have := ih (fun x hx => hgood x (List.mem_cons_of_mem w hx))
          rw [show splitWSGo (joinWords (v :: vs)) [] = pySplit (joinWords (v :: vs)) from rfl, this]

theorem joinWords_ne_nil {w : Str} (l : List Str) (hw : w ≠ []) :
    joinWords (w :: l) ≠ [] := by
  cases l with
  | nil => simpa [joinWords] using hw
  | cons v vs =>
      rw [show joinWords (w :: v :: vs) = w ++ ' ' :: joinWords (v :: vs) from rfl]
      simp

/-- One ceiling-division step: for a non-empty word list of length `n` and
step `s ≥ 1`, the loop emits one window and recurses on `n - s` words. -/
theorem ceil_div_step (n s : Nat) (hn : 1 ≤ n) (hs : 1 ≤ s) :
    (n + s - 1) / s = ((n - 1) - (s - 1) + s - 1) / s + 1 := by
  have hs0 : 0 < s := hs
  have e2 : n + s - 1 = (n - 1) + s := by omega
  rw [e2, Nat.add_div_right _ hs0]
  rcases le_or_lt s n with h | h
  · have e1 : (n - 1) - (s - 1) + s - 1 = (n - 1) := by omega
    rw [e1]
  · have e1 : (n - 1) - (s - 1) = 0 := by omega
    rw [e1]
    rw [Nat.div_eq_of_lt (by omega), Nat.div_eq_of_lt (by omega)]

/-- The chunking loop, characterized: the emitted chunks are the joined
word windows, there are `ceil(len / step)` of them, taking the first
`step` words of each window reassembles the original word list, and every
window draws its words from the input. -/
theorem chunkGo_spec (C s : Nat) (hs : 1 ≤ s) (hsC : s ≤ C) :
    ∀ (fuel : Nat) (ws : List Str), ws.length ≤ fuel → (∀ w ∈ ws, goodWord w) →
      chunkGo C s fuel ws = (chunkWindowsGo C s fuel ws).map joinWords ∧
      (chunkWindowsGo C s fuel ws).length = (ws.length + s - 1) / s ∧
      ((chunkWindowsGo C s fuel ws).map (List.take s)).flatten = ws ∧
      ∀ win ∈ chunkWindowsGo C s fuel ws, ∀ w ∈ win, w ∈ ws := by
  intro fuel
  induction fuel with
  | zero =>
      intro ws hlen _
      have : ws = [] := List.eq_nil_of_length_eq_zero (Nat.le_zero.mp hlen)
      subst this
      refine ⟨rfl, ?_, rfl, by simp [chunkWindowsGo]⟩
      rw [chunkWindowsGo]
      simp only [List.length_nil, Nat.zero_add]
      exact (Nat.div_eq_of_lt (by omega)).symm
  | succ fuel ih =>
      intro ws hlen hgood
      cases ws with
      | nil =>
          refine ⟨rfl, ?_, rfl, by simp [chunkWindowsGo]⟩
          rw [chunkWindowsGo]
          simp only [List.length_nil, Nat.zero_add]
          exact (Nat.div_eq_of_lt (by omega)).symm
      | cons w ws' =>
          have hw : goodWord w := hgood w (by simp)
          have htl : (List.drop (s - 1) ws').length ≤ fuel := by
            rw [List.length_drop]
            have : ws'.length ≤ fuel := by simpa using Nat.lt_succ_iff.mp hlen
            omega
          have hgood' : ∀ x ∈ List.drop (s - 1) ws', goodWord x := fun x hx =>
            hgood x (List.mem_cons_of_mem w (List.drop_subset _ _ hx))
          obtain ⟨iha, ihb, ihc, ihd⟩ := ih (List.drop (s - 1) ws') htl hgood'
          have hCpos : 1 ≤ C := le_trans hs hsC
          have htake : List.take C (w :: ws') = w :: List.take (C - 1) ws' := by
            cases C with
            | zero => exact absurd hCpos (by omega)
            | succ n => simp [List.take_succ_cons]
          have hne : (joinWords (List.take C (w :: ws'))).isEmpty = false := by
            rw [htake]
            exact isEmpty_false_of_ne_nil (joinWords_ne_nil _ hw.1)
          constructor
          · rw [chunkGo, chunkWindowsGo]
            simp only [hne, Bool.false_eq_true, if_false, List.map_cons]
            rw [iha]
          refine ⟨?_, ?_, ?_⟩
          · rw [chunkWindowsGo]
            simp only [List.length_cons]
            rw [ihb, List.length_drop]
            have := ceil_div_step (w :: ws').length s (by simp) hs
            simp only [List.length_cons, Nat.add_sub_cancel] at this
            omega
          · rw [chunkWindowsGo]
            rw [List.map_cons, List.flatten_cons]
            rw [ihc, List.take_take, min_eq_left hsC]
            have hts : List.take s (w :: ws') = w :: List.take (s - 1) ws' := by
              cases s with
              | zero => exact absurd hs (by omega)
              | succ n => simp [List.take_succ_cons]
            rw [hts, List.cons_append, List.take_append_drop]
          · rw [chunkWindowsGo]
            intro win hwin x hx
            rcases List.mem_cons.mp hwin with hwin | hwin
            · subst hwin
              exact List.take_subset _ _ hx
            · exact List.mem_cons_of_mem w
                (List.drop_subset _ _ (ihd win hwin x hx))

/-- C1: the source's `chunk_text` has no InvalidConfiguration guard.  At
`overlap = chunk_size` the Python `range` step is `0`, raising an unrelated
`ValueError` (modelled `none`); at `overlap > chunk_size` the step is
negative, the loop body never runs, and a non-empty text is silently
chunked to the empty list (corrupt output) — neither path fails with
`InvalidConfiguration` as the claim requires. -/
theorem C1_no_invalid_configuration_guard :
    chunk_text ("a b c".toList) 5 5 = none ∧
    chunk_text ("a b c".toList) 5 6 = some [] := by
  constructor
  · rfl
  · rfl

/-- C2, counterexample: ten words with `chunk_size = 5`, `overlap = 2`
produce 4 chunks (`range(0, 10, 3)` has starts 0, 3, 6, 9), but the claimed
formula `ceil(max(L - O, 0) / (C - O)) = ceil(8 / 3)` gives 3. -/
theorem C2_count_formula_counterexample :
    (chunk_text ("a b c d e f g h i j".toList) 5 2).map List.length = some 4 ∧
    specChunkCount 10 5 2 = 3 ∧
    (chunk_text ("a b c d e f g h i j".toList) 5 2).map List.length ≠
      some (specChunkCount 10 5 2) := by
  refine ⟨by decide, by decide, by decide⟩

/-- C2, amended: with `O < C` and `L` the word count of the text, chunking
produces exactly `ceil(L / (C - O))` chunks (one per loop start `i < L`,
including trailing windows already covered by an earlier chunk), empty
input yields an empty sequence, and re-joining each chunk's first `C - O`
words reconstructs the original word sequence in order. -/
theorem C2_chunk_count_and_reconstruction (text : Str) (C O : Nat) (h : O < C) :
    (chunk_text text C O).map List.length =
      some (((pySplit text).length + (C - O) - 1) / (C - O)) ∧
    (chunk_text text C O).map
        (fun chunks => (chunks.map (fun c => (pySplit c).take (C - O))).flatten) =
      some (pySplit text) ∧
    (pySplit text = [] → chunk_text text C O = some []) := by
  have h1 : ¬ C < O := by omega
  have h2 : ¬ C = O := by omega
  obtain ⟨ha, hb, hc, hd⟩ := chunkGo_spec C (C - O) (by omega) (by omega)
    (pySplit text).length (pySplit text) le_rfl (pySplit_good text)
  have hopen : chunk_text text C O =
      some (chunkGo C (C - O) (pySplit text).length (pySplit text)) := by
    rw [chunk_text]
    simp only [if_neg h1, if_neg h2]
  refine ⟨?_, ?_, ?_⟩
  · rw [hopen, Option.map_some', ha, List.length_map, hb]
  · rw [hopen, Option.map_some', ha, List.map_map]
    have : ∀ win ∈ chunkWindowsGo C (C - O) (pySplit text).length (pySplit text),
        ((fun c => (pySplit c).take (C - O)) ∘ joinWords) win = List.take (C - O) win := by
      intro win hwin
      have : pySplit (joinWords win) = win :=
        pySplit_joinWords win (fun x hx => pySplit_good text x (hd win hwin x hx))
      simp [Function.comp, this]
    rw [List.map_congr_left this, hc]
  · intro hempty
    rw [hopen, hempty]
    rfl

/-- Witness for C2's amended theorem at `text = "a b c"`, `C = 2`, `O = 0`. -/
theorem C2_chunk_count_and_reconstruction_witness :
    0 < 2 ∧
    ((chunk_text ("a b c".toList) 2 0).map List.length =
        some (((pySplit ("a b c".toList)).length + (2 - 0) - 1) / (2 - 0)) ∧
      (chunk_text ("a b c".toList) 2 0).map
          (fun chunks => (chunks.map (fun c => (pySplit c).take (2 - 0))).flatten) =
        some (pySplit ("a b c".toList)) ∧
      (pySplit ("a b c".toList) = [] → chunk_text ("a b c".toList) 2 0 = some [])) :=
  ⟨by decide, C2_chunk_count_and_reconstruction ("a b c".toList) 2 0 (by decide)⟩

/-- The chunk metadata fields `hybrid_search` reads: `rule_id` and
`chunk_index` (the other metadata fields play no role in ranking). -/
structure ChunkMeta where
  rule_id : Str
  chunk_index : Nat
deriving DecidableEq

/-- A chunk as stored in the ChromaDB collection: its text plus metadata. -/
structure StoredChunk where
  content : Str
  meta : ChunkMeta
deriving DecidableEq

/-- One entry of `semantic_search`'s result list: content, metadata and
`similarity = 1 - distance`.  Scores are values of a linear ordered field
`α`, modelling Python floats. -/
structure SemResult (α : Type) where
  content : Str
  meta : ChunkMeta
  similarity : α
deriving DecidableEq

/-- One entry of `tfidf_search`'s result list. -/
structure TfResult (α : Type) where
  content : Str
  meta : ChunkMeta
  tfidf_score : α
deriving DecidableEq

/-- One value of `hybrid_search`'s `combined` dict. -/
structure CandData (α : Type) where
  content : Str
  meta : ChunkMeta
  semantic_score : α
  tfidf_score : α
deriving DecidableEq

instance {α : Type} [Zero α] : Inhabited (CandData α) :=
  ⟨⟨[], ⟨[], 0⟩, 0, 0⟩⟩

/-- One entry of `hybrid_search`'s `final_results` list. -/
structure FinalResult (α : Type) where
  content : Str
  meta : ChunkMeta
  semantic_score : α
  tfidf_score : α
  final_score : α
deriving DecidableEq

/-- The `combined` dict key of `hybrid_search`:
`metadata.get('rule_id', '') + str(metadata.get('chunk_index', ''))` —
plain string concatenation, with no separator between the two parts. -/
def keyOf (m : ChunkMeta) : Str := m.rule_id ++ (Nat.repr m.chunk_index).toList

section Fusion

variable {α : Type} [LinearOrderedField α]

/-- Python dict assignment `combined[k] = f(combined.get(k))`: an existing
key keeps its position and gets the new value, a new key is appended. -/
def upsertWith (k : Str) (f : Option (CandData α) → CandData α) :
    List (Str × CandData α) → List (Str × CandData α)
  | [] => [(k, f none)]
  | (k', d) :: rest =>
      if k' = k then (k', f (some d)) :: rest else (k', d) :: upsertWith k f rest

/-- The first loop of `hybrid_search` (lines 280-287): each semantic result
is written into `combined` with its similarity and `tfidf_score = 0.0`. -/
def combineSem (sem : List (SemResult α)) : List (Str × CandData α) :=
  sem.foldl
    (fun acc r =>
      upsertWith (keyOf r.meta) (fun _ => ⟨r.content, r.meta, r.similarity, 0⟩) acc)
    []

/-- `max_tfidf = max([r['tfidf_score'] for r in tfidf_results]) if tfidf_results else 1.0`. -/
def maxLex (tf : List (TfResult α)) : α :=
  match tf with
  | [] => 1
  | r :: rs => rs.foldl (fun m x => max m x.tfidf_score) r.tfidf_score

/-- `normalized_tfidf = r['tfidf_score'] / max_tfidf if max_tfidf > 0 else 0`. -/
def normLex (tf : List (TfResult α)) (r : TfResult α) : α :=
  if 0 < maxLex tf then r.tfidf_score / maxLex tf else 0

/-- The second loop of `hybrid_search` (lines 290-303): a TF-IDF result
either updates the `tfidf_score` of an existing candidate or creates a new
one with `semantic_score = 0.0`. -/
def combineResults (sem : List (SemResult α)) (tf : List (TfResult α)) :
    List (Str × CandData α) :=
  tf.foldl
    (fun acc r =>
      upsertWith (keyOf r.meta)
        (fun old =>
          match old with
          | some d => { d with tfidf_score := normLex tf r }
          | none => ⟨r.content, r.meta, 0, normLex tf r⟩)
        acc)
    (combineSem sem)

/-- `final_score = semantic_weight * semantic_score + tfidf_weight * tfidf_score`
(lines 308-309). -/
def fusedScore (sw lw ss ls : α) : α := sw * ss + lw * ls

/-- The third loop of `hybrid_search` (lines 306-317), building
`final_results` from `combined.items()` in insertion order. -/
def finalize (sw lw : α) (l : List (Str × CandData α)) : List (FinalResult α) :=
  l.map fun kd =>
    ⟨kd.2.content, kd.2.meta, kd.2.semantic_score, kd.2.tfidf_score,
      fusedScore sw lw kd.2.semantic_score kd.2.tfidf_score⟩

/-- Insert `x` after every element whose key is `≥ key x` and before the
first strictly smaller one: the insertion step of a stable descending
sort, matching Python's stable `list.sort(key=..., reverse=True)`. -/
def insertDescBy {β : Type} (key : β → α) (x : β) : List β → List β
  | [] => [x]
  | y :: ys => if key x ≤ key y then y :: insertDescBy key x ys else x :: y :: ys

/-- Stable descending sort by `key`: Python `list.sort(key=..., reverse=True)`. -/
def sortDescBy {β : Type} (key : β → α) (l : List β) : List β :=
  l.foldl (fun acc x => insertDescBy key x acc) []

/-- `hybrid_search`'s fusion and ranking (lines 277-323), given the two
source result lists: combine into the `combined` dict, compute final
scores, sort descending by final score, truncate to `top_k`. -/
def hybridFusion (sem : List (SemResult α)) (tf : List (TfResult α))
    (top_k : Nat) (sw lw : α) : List (FinalResult α) :=
  (sortDescBy (fun r => r.final_score) (finalize sw lw (combineResults sem tf))).take top_k

/-- `ClaudeQASystem._calculate_context_precision`'s loop
(src/rag/claude_qa.py lines 326-332): start from `1.0` and multiply by
`0.8` for each adjacent pair of scores with `scores[i] < scores[i+1]`. -/
def cpLoop : α → List α → α
  | p, a :: b :: t => cpLoop (if a < b then p * (4 / 5) else p) (b :: t)
  | p, _ => p

/-- `ClaudeQASystem._calculate_context_precision` (lines 317-334): `0.0`
for an empty context list, otherwise the loop above over the
`final_score`s. -/
def contextPrecision (ctxs : List (FinalResult α)) : α :=
  if ctxs.isEmpty then 0 else cpLoop 1 (ctxs.map (fun c => c.final_score))

/-- Specification-side count of adjacent out-of-order pairs:
the number of indices `i` with `scores[i] < scores[i+1]`. -/
def countViol : List α → Nat
  | a :: b :: t => (if a < b then 1 else 0) + countViol (b :: t)
  | _ => 0

end Fusion

/-- The keys of a list in order of first occurrence (the iteration order
of a Python dict built by repeated assignment). -/
def firstOccurGo : List Str → List Str → List Str
  | _, [] => []
  | seen, k :: ks =>
      if k ∈ seen then firstOccurGo seen ks else k :: firstOccurGo (k :: seen) ks

/-- Deduplicate a key list keeping first occurrences, in order. -/
def firstOccur (ks : List Str) : List Str := firstOccurGo [] ks

section SortLemmas

variable {α : Type} [LinearOrderedField α] {β : Type} (key : β → α)

theorem insertDescBy_perm (x : β) (l : List β) :
    (insertDescBy key x l).Perm (x :: l) := by
  induction l with
  | nil => exact List.Perm.refl _
  | cons y ys ih =>
      rw [insertDescBy]
      by_cases h : key x ≤ key y
      · rw [if_pos h]
        exact ((ih.cons y).trans (List.Perm.swap x y ys))
      · rw [if_neg h]

theorem foldl_insertDescBy_perm :
    ∀ (l acc : List β),
      (l.foldl (fun a x => insertDescBy key x a) acc).Perm (acc ++ l) := by
  intro l
  induction l with
  | nil => intro acc; simp
  | cons x xs ih =>
      intro acc
      have h1 := ih (insertDescBy key x acc)
      have h2 : (insertDescBy key x acc ++ xs).Perm (acc ++ x :: xs) := by
        refine ((insertDescBy_perm key x acc).append_right xs).trans ?_
        exact (List.perm_middle).symm
      exact h1.trans h2

theorem sortDescBy_perm (l : List β) : (sortDescBy key l).Perm l := by
  have := foldl_insertDescBy_perm key l []
  simpa [sortDescBy] using this

theorem sortDescBy_length (l : List β) : (sortDescBy key l).length = l.length :=
  (sortDescBy_perm key l).length_eq

theorem mem_sortDescBy {x : β} {l : List β} :
    x ∈ sortDescBy key l ↔ x ∈ l :=
  (sortDescBy_perm key l).mem_iff

/-- Non-increasing by `key`. -/
def SortedDesc (l : List β) : Prop := l.Pairwise (fun a b => key b ≤ key a)

theorem insertDescBy_sorted {x : β} {l : List β} (hl : SortedDesc key l) :
    SortedDesc key (insertDescBy key x l) := by
  induction l with
  | nil => exact List.pairwise_singleton _ x
  | cons y ys ih =>
      rw [SortedDesc, List.pairwise_cons] at hl
      rw [insertDescBy]
      by_cases h : key x ≤ key y
      · rw [if_pos h]
        rw [SortedDesc, List.pairwise_cons]
        constructor
        · intro z hz
          have hz' := (insertDescBy_perm key x ys).mem_iff.mp hz
          rcases List.mem_cons.mp hz' with h1 | h1
          · rw [h1]; exact h
          · exact hl.1 z h1
        · exact ih hl.2
      · rw [if_neg h]
        rw [SortedDesc, List.pairwise_cons]
        refine ⟨?_, List.pairwise_cons.mpr hl⟩
        intro z hz
        rcases List.mem_cons.mp hz with hz | hz
        · rw [hz]; exact le_of_lt (lt_of_not_le h)
        · exact le_trans (hl.1 z hz) (le_of_lt (lt_of_not_le h))

theorem foldl_insertDescBy_sorted :
    ∀ (l acc : List β), SortedDesc key acc →
      SortedDesc key (l.foldl (fun a x => insertDescBy key x a) acc) := by
  intro l
  induction l with
  | nil => intro acc h; exact h
  | cons x xs ih =>
      intro acc h
      exact ih _ (insertDescBy_sorted key h)

theorem sortDescBy_sorted (l : List β) : SortedDesc key (sortDescBy key l) :=
  foldl_insertDescBy_sorted key l [] (List.Pairwise.nil)

theorem filter_key_eq_nil_of_lt {v : α} {y : β} {ys : List β}
    (hs : SortedDesc key (y :: ys)) (hy : key y < v) :
    (y :: ys).filter (fun b => key b = v) = [] := by
  rw [List.filter_eq_nil_iff]
  intro z hz
  have hzy : key z ≤ key y := by
    rcases List.mem_cons.mp hz with h | h
    · rw [h]
    · exact (List.pairwise_cons.mp hs).1 z h
  simp only [decide_eq_true_eq]
  exact ne_of_lt (lt_of_le_of_lt hzy hy)

theorem filter_key_insertDescBy {v : α} {x : β} {l : List β}
    (hs : SortedDesc key l) :
    (insertDescBy key x l).filter (fun b => key b = v) =
      if key x = v then l.filter (fun b => key b = v) ++ [x]
      else l.filter (fun b => key b = v) := by
  induction l with
  | nil =>
      rw [insertDescBy]
      by_cases hx : key x = v
      · rw [if_pos hx]
        simp [List.filter, hx]
      · rw [if_neg hx]
        simp [List.filter, hx]
  | cons y ys ih =>
      rw [insertDescBy]
      by_cases h : key x ≤ key y
      · rw [if_pos h]
        have hys : SortedDesc key ys := (List.pairwise_cons.mp hs).2
        by_cases hy : key y = v
        · rw [List.filter_cons_of_pos (by simp [hy]),
            List.filter_cons_of_pos (by simp [hy]), ih hys]
          by_cases hx : key x = v
          · rw [if_pos hx, if_pos hx, List.cons_append]
          · rw [if_neg hx, if_neg hx]
        · rw [List.filter_cons_of_neg (by simp [hy]),
            List.filter_cons_of_neg (by simp [hy]), ih hys]
      · rw [if_neg h]
        have hyx : key y < key x := lt_of_not_le h
        by_cases hx : key x = v
        · rw [if_pos hx]
          rw [List.filter_cons_of_pos (by simp [hx]),
            filter_key_eq_nil_of_lt key hs (hx ▸ hyx)]
          rfl
        · rw [if_neg hx]
          rw [List.filter_cons_of_neg (by simp [hx])]

theorem filter_key_foldl_insertDescBy {v : α} :
    ∀ (l acc : List β), SortedDesc key acc →
      (l.foldl (fun a x => insertDescBy key x a) acc).filter (fun b => key b = v) =
        acc.filter (fun b => key b = v) ++ l.filter (fun b => key b = v) := by
  intro l
  induction l with
  | nil => intro acc _; simp
  | cons x xs ih =>
      intro acc hacc
      rw [List.foldl_cons, ih _ (insertDescBy_sorted key hacc),
        filter_key_insertDescBy key hacc]
      by_cases hx : key x = v
      · rw [if_pos hx, List.filter_cons_of_pos (by simp [hx]), List.append_assoc]
        rfl
      · rw [if_neg hx, List.filter_cons_of_neg (by simp [hx])]

/-- Stability of the descending sort: elements sharing a key value keep
their input order. -/
theorem sortDescBy_filter_key (v : α) (l : List β) :
    (sortDescBy key l).filter (fun b => key b = v) =
      l.filter (fun b => key b = v) := by
  have := filter_key_foldl_insertDescBy key (v := v) l [] List.Pairwise.nil
  simpa [sortDescBy] using this

end SortLemmas

section CombineLemmas

variable {α : Type} [LinearOrderedField α]

theorem upsertWith_keys (k : Str) (f : Option (CandData α) → CandData α) :
    ∀ l : List (Str × CandData α),
      (upsertWith k f l).map Prod.fst =
        if k ∈ l.map Prod.fst then l.map Prod.fst else l.map Prod.fst ++ [k] := by
  intro l
  induction l with
  | nil => simp [upsertWith]
  | cons p rest ih =>
      obtain ⟨k', d⟩ := p
      rw [upsertWith]
      by_cases h : k' = k
      · rw [if_pos h]
        subst h
        simp
      · rw [if_neg h]
        simp only [List.map_cons]
        rw [ih]
        have hk : (k ∈ k' :: rest.map Prod.fst) ↔ k ∈ rest.map Prod.fst := by
          constructor
          · intro hm
            rcases List.mem_cons.mp hm with h1 | h1
            · exact absurd h1.symm h
            · exact h1
          · exact List.mem_cons_of_mem _
        by_cases hm : k ∈ rest.map Prod.fst
        · rw [if_pos hm, if_pos (hk.mpr hm)]
        · rw [if_neg hm, if_neg (fun hh => hm (hk.mp hh))]
          simp

theorem firstOccurGo_congr :
    ∀ (ks s1 s2 : List Str), (∀ a, a ∈ s1 ↔ a ∈ s2) →
      firstOccurGo s1 ks = firstOccurGo s2 ks := by
  intro ks
  induction ks with
  | nil => intro s1 s2 _; rfl
  | cons k ks ih =>
      intro s1 s2 hm
      rw [firstOccurGo, firstOccurGo]
      by_cases h : k ∈ s1
      · rw [if_pos h, if_pos ((hm k).mp h), ih s1 s2 hm]
      · rw [if_neg h, if_neg (fun hh => h ((hm k).mpr hh))]
        rw [ih (k :: s1) (k :: s2) (by intro a; simp [hm a])]

theorem firstOccurGo_eq_nil :
    ∀ (ks seen : List Str), (∀ k ∈ ks, k ∈ seen) → firstOccurGo seen ks = [] := by
  intro ks
  induction ks with
  | nil => intro seen _; rfl
  | cons k ks ih =>
      intro seen h
      rw [firstOccurGo, if_pos (h k (by simp))]
      exact ih seen (fun x hx => h x (List.mem_cons_of_mem k hx))

theorem firstOccurGo_append :
    ∀ (xs ys s : List Str),
      firstOccurGo s (xs ++ ys) =
        firstOccurGo s xs ++ firstOccurGo (firstOccurGo s xs ++ s) ys := by
  intro xs
  induction xs with
  | nil =>
      intro ys s
      simp [firstOccurGo]
  | cons x xs ih =>
      intro ys s
      rw [List.cons_append, firstOccurGo, firstOccurGo]
      by_cases h : x ∈ s
      · rw [if_pos h, if_pos h, ih]
      · rw [if_neg h, if_neg h, ih, List.cons_append]
        rw [firstOccurGo_congr ys (firstOccurGo (x :: s) xs ++ x :: s)
          ((x :: firstOccurGo (x :: s) xs) ++ s) (by intro a; simp; tauto)]

/-- A non-empty key list whose every element is `k0` deduplicates to `[k0]`. -/
theorem firstOccur_const (k0 : Str) :
    ∀ ks : List Str, ks ≠ [] → (∀ k ∈ ks, k = k0) → firstOccur ks = [k0] := by
  intro ks hne hconst
  cases ks with
  | nil => exact absurd rfl hne
  | cons k ks =>
      have hk : k = k0 := hconst k (by simp)
      rw [firstOccur, firstOccurGo, if_neg (by simp)]
      rw [hk, firstOccurGo_eq_nil ks [k0]
        (fun x hx => by rw [hconst x (List.mem_cons_of_mem k hx)]; simp)]

theorem foldl_upsertWith_keys {γ : Type} (kf : γ → Str)
    (f : γ → Option (CandData α) → CandData α) :
    ∀ (rs : List γ) (acc : List (Str × CandData α)),
      (rs.foldl (fun a r => upsertWith (kf r) (f r) a) acc).map Prod.fst =
        acc.map Prod.fst ++ firstOccurGo (acc.map Prod.fst) (rs.map kf) := by
  intro rs
  induction rs with
  | nil => intro acc; simp [firstOccurGo]
  | cons r rs ih =>
      intro acc
      rw [List.foldl_cons, ih, upsertWith_keys, List.map_cons, firstOccurGo]
      by_cases hm : kf r ∈ acc.map Prod.fst
      · rw [if_pos hm, if_pos hm]
      · rw [if_neg hm, if_neg hm]
        rw [firstOccurGo_congr (rs.map kf) ((acc.map Prod.fst) ++ [kf r])
          (kf r :: acc.map Prod.fst) (by intro a; simp [or_comm])]
        simp

/-- The `combined` dict holds one candidate per distinct key, keyed in
order of first encounter: semantic results first, then TF-IDF-only ones. -/
theorem combineResults_keys (sem : List (SemResult α)) (tf : List (TfResult α)) :
    (combineResults sem tf).map Prod.fst =
      firstOccur (sem.map (fun r => keyOf r.meta) ++ tf.map (fun r => keyOf r.meta)) := by
  have h1 : (combineSem sem).map Prod.fst =
      firstOccurGo [] (sem.map fun r => keyOf r.meta) := by
    rw [combineSem, foldl_upsertWith_keys]
    simp
  rw [combineResults, foldl_upsertWith_keys, h1, firstOccur, firstOccurGo_append]
  congr 1
  exact (firstOccurGo_congr _ _ _ (by intro a; simp)).symm

theorem upsertWith_value_pred (P : CandData α → Prop) (k : Str)
    (f : Option (CandData α) → CandData α) (hf : ∀ o, P (f o)) :
    ∀ l : List (Str × CandData α), (∀ p ∈ l, P p.2) →
      ∀ p ∈ upsertWith k f l, P p.2 := by
  intro l
  induction l with
  | nil =>
      intro _ p hp
      rw [upsertWith] at hp
      simp at hp
      rw [hp]
      exact hf none
  | cons q rest ih =>
      obtain ⟨k', d⟩ := q
      intro hl p hp
      rw [upsertWith] at hp
      by_cases h : k' = k
      · rw [if_pos h] at hp
        rcases List.mem_cons.mp hp with h1 | h1
        · rw [h1]; exact hf (some d)
        · exact hl p (List.mem_cons_of_mem _ h1)
      · rw [if_neg h] at hp
        rcases List.mem_cons.mp hp with h1 | h1
        · rw [h1]; exact hl _ (by simp)
        · exact ih (fun q hq => hl q (List.mem_cons_of_mem _ hq)) p h1

theorem foldl_upsertWith_value_pred {γ : Type} (P : CandData α → Prop)
    (kf : γ → Str) (f : γ → Option (CandData α) → CandData α) :
    ∀ (rs : List γ) (acc : List (Str × CandData α)),
      (∀ p ∈ acc, P p.2) → (∀ r ∈ rs, ∀ o, P (f r o)) →
      ∀ p ∈ rs.foldl (fun a r => upsertWith (kf r) (f r) a) acc, P p.2 := by
  intro rs
  induction rs with
  | nil => intro acc hacc _ p hp; exact hacc p hp
  | cons r rs ih =>
      intro acc hacc hf p hp
      rw [List.foldl_cons] at hp
      refine ih _ ?_ (fun r' hr' => hf r' (List.mem_cons_of_mem r hr')) p hp
      exact upsertWith_value_pred P _ _ (hf r (by simp)) acc hacc

end CombineLemmas

section FusionTheorems

variable {α : Type} [LinearOrderedField α]

theorem finalize_final_score (sw lw : α) (l : List (Str × CandData α)) :
    ∀ r ∈ finalize sw lw l,
      r.final_score = sw * r.semantic_score + lw * r.tfidf_score := by
  intro r hr
  rcases List.mem_map.mp hr with ⟨kd, _, hkd⟩
  rw [← hkd]
  rfl

theorem finalize_tfidf_mem (sw lw : α) (l : List (Str × CandData α)) :
    ∀ r ∈ finalize sw lw l, ∃ p ∈ l, r.tfidf_score = p.2.tfidf_score := by
  intro r hr
  rcases List.mem_map.mp hr with ⟨kd, hmem, hkd⟩
  exact ⟨kd, hmem, by rw [← hkd]⟩

theorem combineSem_tfidf_zero (sem : List (SemResult α)) :
    ∀ p ∈ combineSem sem, p.2.tfidf_score = 0 := by
  rw [combineSem]
  exact foldl_upsertWith_value_pred (fun d => d.tfidf_score = 0) _ _ sem []
    (by intro p hp; simp at hp) (by intro r _ o; rfl)

theorem combineResults_tfidf (sem : List (SemResult α)) (tf : List (TfResult α)) :
    ∀ p ∈ combineResults sem tf,
      p.2.tfidf_score = 0 ∨
        (0 < maxLex tf ∧ ∃ r ∈ tf, p.2.tfidf_score = r.tfidf_score / maxLex tf) := by
  rw [combineResults]
  refine foldl_upsertWith_value_pred
    (fun d => d.tfidf_score = 0 ∨
      (0 < maxLex tf ∧ ∃ r ∈ tf, d.tfidf_score = r.tfidf_score / maxLex tf))
    _ _ tf (combineSem sem)
    (fun p hp => Or.inl (combineSem_tfidf_zero sem p hp)) ?_
  intro r hr o
  have : ∀ d : CandData α, d.tfidf_score = normLex tf r →
      d.tfidf_score = 0 ∨
        (0 < maxLex tf ∧ ∃ x ∈ tf, d.tfidf_score = x.tfidf_score / maxLex tf) := by
    intro d hd
    rw [hd, normLex]
    by_cases hpos : 0 < maxLex tf
    · rw [if_pos hpos]
      exact Or.inr ⟨hpos, r, hr, rfl⟩
    · rw [if_neg hpos]
      exact Or.inl rfl
  cases o with
  | none => exact this _ rfl
  | some d => exact this _ rfl

/-- C6: fusion and ranking.  Conjuncts, in order: the output is the
descending sort of the finalized candidates truncated to `top_k`; every
returned result's final score is
`semantic_weight * semantic_score + tfidf_weight * tfidf_score`; the output
is sorted non-increasingly by final score; equal final scores keep the
order in which their candidates were first encountered (the sort is
stable); candidates are keyed in order of first encounter, one per
distinct key; a zero maximum lexical score yields all-zero normalized
lexical scores; every candidate's stored lexical score is either `0.0` or
`lexical_score / max lexical score` of some TF-IDF result. -/
theorem C6_fusion_formula_and_ranking (α : Type) [LinearOrderedField α]
    (sem : List (SemResult α)) (tf : List (TfResult α)) (k : Nat) (sw lw : α) :
    hybridFusion sem tf k sw lw =
      (sortDescBy (fun r => r.final_score) (finalize sw lw (combineResults sem tf))).take k
    ∧ (∀ r ∈ hybridFusion sem tf k sw lw,
        r.final_score = sw * r.semantic_score + lw * r.tfidf_score)
    ∧ List.Pairwise (fun a b => b.final_score ≤ a.final_score)
        (hybridFusion sem tf k sw lw)
    ∧ (∀ v : α,
        (sortDescBy (fun r : FinalResult α => r.final_score)
            (finalize sw lw (combineResults sem tf))).filter
            (fun r => r.final_score = v) =
          (finalize sw lw (combineResults sem tf)).filter (fun r => r.final_score = v))
    ∧ (combineResults sem tf).map Prod.fst =
        firstOccur (sem.map (fun r => keyOf r.meta) ++ tf.map (fun r => keyOf r.meta))
    ∧ (maxLex tf = 0 → ∀ r ∈ hybridFusion sem tf k sw lw, r.tfidf_score = 0)
    ∧ (∀ p ∈ combineResults sem tf,
        p.2.tfidf_score = 0 ∨
          (0 < maxLex tf ∧ ∃ r ∈ tf, p.2.tfidf_score = r.tfidf_score / maxLex tf)) := by
  have hmem : ∀ r ∈ hybridFusion sem tf k sw lw,
      r ∈ finalize sw lw (combineResults sem tf) := by
    intro r hr
    exact (mem_sortDescBy _).mp (List.mem_of_mem_take hr)
  refine ⟨rfl, ?_, ?_, ?_, combineResults_keys sem tf, ?_, combineResults_tfidf sem tf⟩
  · intro r hr
    exact finalize_final_score sw lw _ r (hmem r hr)
  · exact List.Pairwise.sublist (List.take_sublist _ _)
      (sortDescBy_sorted (fun r : FinalResult α => r.final_score) _)
  · intro v
    exact sortDescBy_filter_key _ v _
  · intro hmax r hr
    rcases finalize_tfidf_mem sw lw _ r (hmem r hr) with ⟨p, hp, hpt⟩
    rcases combineResults_tfidf sem tf p hp with h0 | ⟨hpos, _⟩
    · rw [hpt, h0]
    · exact absurd hmax (ne_of_gt hpos)

/-- C7: shifting weight from lexical to semantic (same delta) never
decreases the fused score of a candidate whose semantic score exceeds its
normalized lexical score. -/
theorem C7_weight_shift_monotone (α : Type) [LinearOrderedField α]
    (sw lw ss ls d : α) (h1 : ls < ss) (h2 : 0 < d) :
    fusedScore sw lw ss ls ≤ fusedScore (sw + d) (lw - d) ss ls := by
  rw [fusedScore, fusedScore]
  nlinarith [mul_pos h2 (sub_pos.mpr h1)]

/-- Witness for C7 at concrete weights `0.7 / 0.3`, `d = 0.1`, scores 1 and 0. -/
theorem C7_weight_shift_monotone_witness :
    fusedScore (7 / 10 : ℚ) (3 / 10) 1 0 ≤ fusedScore (7 / 10 + 1 / 10) (3 / 10 - 1 / 10) 1 0 :=
  C7_weight_shift_monotone ℚ (7 / 10) (3 / 10) 1 0 (1 / 10) (by norm_num) (by norm_num)

/-- C5: the `combined` dict key is the concatenation
`rule_id + str(chunk_index)`; the distinct identities `("r1", 11)` and
`("r11", 1)` collide on key `"r111"`, so the second semantic result
overwrites the first and the fusion returns one candidate instead of two. -/
theorem C5_key_collision_merges_distinct_chunks :
    keyOf ⟨"r1".toList, 11⟩ = keyOf ⟨"r11".toList, 1⟩ ∧
    (⟨"r1".toList, 11⟩ : ChunkMeta) ≠ ⟨"r11".toList, 1⟩ ∧
    (hybridFusion [⟨"first".toList, ⟨"r1".toList, 11⟩, (1 : ℚ)⟩,
        ⟨"second".toList, ⟨"r11".toList, 1⟩, 0⟩] [] 5 1 1).map (fun r => r.meta) =
      [⟨"r11".toList, 1⟩] ∧
    (hybridFusion [⟨"first".toList, ⟨"r1".toList, 11⟩, (1 : ℚ)⟩,
        ⟨"second".toList, ⟨"r11".toList, 1⟩, 0⟩] [] 5 1 1).length = 1 := by
  refine ⟨by decide, by decide, by decide, by decide⟩

end FusionTheorems

section PrecisionTheorems

variable {α : Type} [LinearOrderedField α]

theorem cpLoop_eq : ∀ (l : List α) (p : α), cpLoop p l = p * (4 / 5) ^ countViol l := by
  intro l
  induction l with
  | nil => intro p; simp [cpLoop, countViol]
  | cons a t ih =>
      intro p
      cases t with
      | nil => simp [cpLoop, countViol]
      | cons b t' =>
          rw [show cpLoop p (a :: b :: t') =
              cpLoop (if a < b then p * (4 / 5) else p) (b :: t') from rfl]
          rw [ih]
          rw [show countViol (a :: b :: t') =
              (if a < b then 1 else 0) + countViol (b :: t') from rfl]
          by_cases h : a < b
          · rw [if_pos h, if_pos h, pow_add, pow_one]
            ring
          · rw [if_neg h, if_neg h]
            ring_nf

theorem countViol_eq_zero_of_sorted :
    ∀ l : List α, l.Pairwise (fun a b => b ≤ a) → countViol l = 0 := by
  intro l
  induction l with
  | nil => intro _; rfl
  | cons a t ih =>
      intro h
      cases t with
      | nil => rfl
      | cons b t' =>
          rw [show countViol (a :: b :: t') =
              (if a < b then 1 else 0) + countViol (b :: t') from rfl]
          obtain ⟨ha, ht⟩ := List.pairwise_cons.mp h
          rw [if_neg (not_lt.mpr (ha b (by simp))), ih ht]

/-- C9, amended: for a non-empty context list, context precision is
`0.8 ^ (number of adjacent pairs with scores[i] < scores[i+1])`; for an
empty list it is `0.0`, not `1.0`; and on any non-empty output of the
hybrid ranker (which is sorted descending) it equals `1.0`. -/
theorem C9_context_precision_amended (α : Type) [LinearOrderedField α] :
    (∀ ctxs : List (FinalResult α), ctxs ≠ [] →
      contextPrecision ctxs =
        (4 / 5 : α) ^ countViol (ctxs.map fun c => c.final_score)) ∧
    contextPrecision ([] : List (FinalResult α)) = 0 ∧
    (∀ (sem : List (SemResult α)) (tf : List (TfResult α)) (k : Nat) (sw lw : α),
      hybridFusion sem tf k sw lw ≠ [] →
      contextPrecision (hybridFusion sem tf k sw lw) = 1) := by
  have hne : ∀ ctxs : List (FinalResult α), ctxs ≠ [] →
      contextPrecision ctxs =
        (4 / 5 : α) ^ countViol (ctxs.map fun c => c.final_score) := by
    intro ctxs hctxs
    rw [contextPrecision, isEmpty_false_of_ne_nil hctxs]
    simp only [Bool.false_eq_true, if_false]
    rw [cpLoop_eq, one_mul]
  refine ⟨hne, rfl, ?_⟩
  intro sem tf k sw lw h
  rw [hne _ h, countViol_eq_zero_of_sorted, pow_zero]
  refine List.pairwise_map.mpr ?_
  exact List.Pairwise.sublist (List.take_sublist _ _)
    (sortDescBy_sorted (fun r : FinalResult α => r.final_score) _)

/-- C9, counterexample: the hybrid ranker's output on an empty corpus is
the empty list, whose context precision is `0.0`, while the claimed
formula `0.8 ^ 0` (no adjacent pair is out of order) gives `1.0`. -/
theorem C9_empty_list_counterexample :
    contextPrecision (hybridFusion ([] : List (SemResult ℚ)) [] 5 (7 / 10) (3 / 10)) = 0 ∧
    (4 / 5 : ℚ) ^ countViol ((hybridFusion ([] : List (SemResult ℚ)) [] 5 (7 / 10)
        (3 / 10)).map fun c => c.final_score) = 1 ∧
    (0 : ℚ) ≠ 1 := by
  refine ⟨rfl, ?_, by norm_num⟩
  norm_num [hybridFusion, combineResults, combineSem, finalize, sortDescBy, countViol]

end PrecisionTheorems

/-- Python `term in doc` for strings: substring containment. -/
def isSubstr (pat s : Str) : Bool := s.tails.any (fun t => pat.isPrefixOf t)

/-- Python `text.lower()` (ASCII model). -/
def toLowerStr (cs : Str) : Str := cs.map Char.toLower

/-- The character substitution of `HybridRetriever._tokenize`'s
`re.sub(r'[^\w\s]', ' ', text)`: any character that is neither a word
character (alphanumeric or underscore) nor whitespace becomes a space. -/
def subNonWord (c : Char) : Char :=
  if c.isAlphanum || c = '_' || c.isWhitespace then c else ' '

/-- `HybridRetriever._tokenize` (lines 217-221): strip punctuation, then
split on whitespace.  Callers pass already-lowercased text. -/
def tokenize (cs : Str) : List Str := pySplit (cs.map subNonWord)

/-- The retriever's `self.tfidf_cache`: a term-to-IDF mapping. -/
abbrev IdfCache := List (Str × ℝ)

/-- Python `term in self.tfidf_cache` / `self.tfidf_cache[term]`. -/
def cacheLookup : IdfCache → Str → Option ℝ
  | [], _ => none
  | (k, v) :: rest, t => if k = t then some v else cacheLookup rest t

/-- The IDF computation of `_calculate_tfidf_score` (lines 246-249):
`doc_count = sum(1 for doc in all_docs if term in doc.lower())`, then
`idf = math.log((len(all_docs) + 1) / (doc_count + 1)) if doc_count > 0 else 0`.
Note `doc_count` is a substring count over the raw chunk texts, not a
token count, and a term found in no chunk gets IDF `0`, not `ln(N + 1)`. -/
noncomputable def idfValue (term : Str) (all_docs : List Str) : ℝ :=
  if 0 < all_docs.countP (fun d => isSubstr term (toLowerStr d)) then
    Real.log (((all_docs.length : ℝ) + 1) /
      ((all_docs.countP (fun d => isSubstr term (toLowerStr d)) : ℝ) + 1))
  else 0

/-- The term-frequency computation of `_calculate_tfidf_score` (line 243):
occurrences of the term among the chunk's tokens over the chunk's token
count, `0` for an empty chunk. -/
noncomputable def termTf (term : Str) (doc_tokens : List Str) : ℝ :=
  if 0 < doc_tokens.length then
    (doc_tokens.count term : ℝ) / (doc_tokens.length : ℝ)
  else 0

/-- The scoring loop of `_calculate_tfidf_score` (lines 241-253), threading
the mutable `self.tfidf_cache` and the running `score`. -/
noncomputable def calcTfidfGo (doc_tokens : List Str) (all_docs : List Str) :
    List Str → IdfCache → ℝ → ℝ × IdfCache
  | [], cache, score => (score, cache)
  | term :: rest, cache, score =>
      match cacheLookup cache term with
      | some idf =>
          calcTfidfGo doc_tokens all_docs rest cache (score + termTf term doc_tokens * idf)
      | none =>
          calcTfidfGo doc_tokens all_docs rest ((term, idfValue term all_docs) :: cache)
            (score + termTf term doc_tokens * idfValue term all_docs)

/-- `HybridRetriever._calculate_tfidf_score` (lines 223-255): returns the
score together with the cache as updated by memoization. -/
noncomputable def calculate_tfidf_score (query_tokens doc_tokens : List Str)
    (all_docs : List Str) (cache : IdfCache) : ℝ × IdfCache :=
  calcTfidfGo doc_tokens all_docs query_tokens cache 0

/-- The per-chunk score as a pure formula over the corpus snapshot: the sum
over query terms of `tf(term) * idf(term)` with the source's `tf` and
`idf` (substring document counts, `0` when the count is zero).  This is
the amended form of the specification's §4.3 formula. -/
noncomputable def pureTfidfScore (query_tokens doc_tokens all_docs : List Str) : ℝ :=
  (query_tokens.map (fun t => termTf t doc_tokens * idfValue t all_docs)).sum

/-- Modelled from the spec's words (§4.3, §8): the claimed score formula, in
which `df` is the number of chunks containing the term at least once under
the tokenization used for queries and chunks, and the IDF of a term in no
chunk is `ln(N + 1)` (no zero-guard on `df`). -/
noncomputable def specTfidfScore (query_tokens doc_tokens all_docs : List Str) : ℝ :=
  (query_tokens.map (fun t =>
    termTf t doc_tokens *
      Real.log (((all_docs.length : ℝ) + 1) /
        ((all_docs.countP (fun d => decide (t ∈ tokenize (toLowerStr d))) : ℝ) + 1)))).sum

/-- The cache holds only IDF values of the given corpus snapshot. -/
def cacheConsistent (cache : IdfCache) (all_docs : List Str) : Prop :=
  ∀ p ∈ cache, p.2 = idfValue p.1 all_docs

theorem cacheLookup_mem :
    ∀ (cache : IdfCache) (t : Str) (v : ℝ), cacheLookup cache t = some v → (t, v) ∈ cache := by
  intro cache
  induction cache with
  | nil => intro t v h; exact absurd h (by simp [cacheLookup])
  | cons p rest ih =>
      obtain ⟨k, w⟩ := p
      intro t v h
      rw [cacheLookup] at h
      by_cases hk : k = t
      · rw [if_pos hk] at h
        subst hk
        rw [Option.some_inj] at h
        subst h
        simp
      · rw [if_neg hk] at h
        exact List.mem_cons_of_mem _ (ih t v h)

theorem calcTfidfGo_spec (doc_tokens all_docs : List Str) :
    ∀ (qt : List Str) (cache : IdfCache) (acc : ℝ), cacheConsistent cache all_docs →
      (calcTfidfGo doc_tokens all_docs qt cache acc).1 =
        acc + pureTfidfScore qt doc_tokens all_docs ∧
      cacheConsistent (calcTfidfGo doc_tokens all_docs qt cache acc).2 all_docs := by
  intro qt
  induction qt with
  | nil =>
      intro cache acc hc
      exact ⟨by simp [calcTfidfGo, pureTfidfScore], hc⟩
  | cons t ts ih =>
      intro cache acc hc
      have hsum : pureTfidfScore (t :: ts) doc_tokens all_docs =
          termTf t doc_tokens * idfValue t all_docs +
            pureTfidfScore ts doc_tokens all_docs := by
        simp [pureTfidfScore]
      cases hl : cacheLookup cache t with
      | some idf =>
          have hidf : idf = idfValue t all_docs := hc (t, idf) (cacheLookup_mem cache t idf hl)
          rw [show calcTfidfGo doc_tokens all_docs (t :: ts) cache acc =
              (match cacheLookup cache t with
               | some idf => calcTfidfGo doc_tokens all_docs ts cache
                   (acc + termTf t doc_tokens * idf)
               | none => calcTfidfGo doc_tokens all_docs ts
                   ((t, idfValue t all_docs) :: cache)
                   (acc + termTf t doc_tokens * idfValue t all_docs)) from rfl, hl]

          obtain ⟨h1, h2⟩ := ih cache (acc + termTf t doc_tokens * idf) hc
          refine ⟨?_, h2⟩
          rw [h1, hsum, hidf]
          ring
      | none =>
          have hc' : cacheConsistent ((t, idfValue t all_docs) :: cache) all_docs := by
            intro p hp
            rcases List.mem_cons.mp hp with hp | hp
            · rw [hp]
            · exact hc p hp
          rw [show calcTfidfGo doc_tokens all_docs (t :: ts) cache acc =
              (match cacheLookup cache t with
               | some idf => calcTfidfGo doc_tokens all_docs ts cache
                   (acc + termTf t doc_tokens * idf)
               | none => calcTfidfGo doc_tokens all_docs ts
                   ((t, idfValue t all_docs) :: cache)
                   (acc + termTf t doc_tokens * idfValue t all_docs)) from rfl, hl]
          obtain ⟨h1, h2⟩ := ih ((t, idfValue t all_docs) :: cache)
            (acc + termTf t doc_tokens * idfValue t all_docs) hc'
          refine ⟨?_, h2⟩
          rw [h1, hsum]
          ring

/-- C3, amended: computed with any cache consistent with the corpus
snapshot (the fresh empty cache in particular), the lexical score equals
the sum over query terms of `tf(term, chunk) * idf(term)`, where `idf`
uses the substring document count and is `0` for a term found in no chunk
— and memoization keeps the cache consistent. -/
theorem C3_tfidf_score_amended (query_tokens doc_tokens all_docs : List Str)
    (cache : IdfCache) (hc : cacheConsistent cache all_docs) :
    (calculate_tfidf_score query_tokens doc_tokens all_docs cache).1 =
      pureTfidfScore query_tokens doc_tokens all_docs ∧
    cacheConsistent (calculate_tfidf_score query_tokens doc_tokens all_docs cache).2
      all_docs := by
  obtain ⟨h1, h2⟩ := calcTfidfGo_spec doc_tokens all_docs query_tokens cache 0 hc
  exact ⟨by rw [calculate_tfidf_score, h1, zero_add], h2⟩

/-- Witness for C3's amended theorem: a one-term query against a one-chunk
corpus, starting from the empty (trivially consistent) cache. -/
theorem C3_tfidf_score_amended_witness :
    (calculate_tfidf_score ["cat".toList] ["cat".toList] ["cat".toList] []).1 =
      pureTfidfScore ["cat".toList] ["cat".toList] ["cat".toList] ∧
    cacheConsistent
      (calculate_tfidf_score ["cat".toList] ["cat".toList] ["cat".toList] []).2
      ["cat".toList] :=
  C3_tfidf_score_amended ["cat".toList] ["cat".toList] ["cat".toList] []
    (by intro p hp; simp at hp)

/-- C3, counterexample: corpus `["cat", "catalog"]`, query `"cat"`, scored
chunk `"cat"`.  The source counts `df` by substring containment
(`"cat" in "catalog"` holds), giving `df = 2` and score
`1 * ln(3/3) = 0`; the claim's tokenized `df` is `1`, giving score
`ln(3/2) ≠ 0`. -/
theorem C3_substring_df_counterexample :
    (calculate_tfidf_score (tokenize (toLowerStr "cat".toList))
        (tokenize (toLowerStr "cat".toList)) ["cat".toList, "catalog".toList] []).1 = 0 ∧
    specTfidfScore (tokenize (toLowerStr "cat".toList)) (tokenize (toLowerStr "cat".toList))
        ["cat".toList, "catalog".toList] = Real.log (3 / 2) ∧
    Real.log (3 / 2) ≠ 0 := by
  refine ⟨?_, ?_, ne_of_gt (Real.log_pos (by norm_num))⟩
  · rw [show tokenize (toLowerStr "cat".toList) = ["cat".toList] from rfl]
    rw [calculate_tfidf_score]
    rw [show calcTfidfGo ["cat".toList] ["cat".toList, "catalog".toList] ["cat".toList] [] 0 =
        calcTfidfGo ["cat".toList] ["cat".toList, "catalog".toList] []
          [("cat".toList, idfValue "cat".toList ["cat".toList, "catalog".toList])]
          (0 + termTf "cat".toList ["cat".toList] *
            idfValue "cat".toList ["cat".toList, "catalog".toList]) from rfl]
    rw [show ∀ c a, calcTfidfGo ["cat".toList] ["cat".toList, "catalog".toList] [] c a = (a, c)
        from fun c a => rfl]
    have hidf : idfValue "cat".toList ["cat".toList, "catalog".toList] = 0 := by
      rw [idfValue]
      rw [show (["cat".toList, "catalog".toList].countP
        (fun d => isSubstr "cat".toList (toLowerStr d))) = 2 from rfl]
      rw [if_pos (by norm_num)]
      norm_num [Real.log_one]
    rw [hidf]
    ring
  · rw [show tokenize (toLowerStr "cat".toList) = ["cat".toList] from rfl]
    rw [specTfidfScore]
    simp only [List.map_cons, List.map_nil, List.sum_cons, List.sum_nil]
    rw [show (["cat".toList, "catalog".toList].countP
        (fun d => decide ("cat".toList ∈ tokenize (toLowerStr d)))) = 1 from rfl]
    rw [show (["cat".toList, "catalog".toList] : List Str).length = 2 from rfl]
    have htf : termTf "cat".toList ["cat".toList] = 1 := by
      rw [termTf]
      rw [show List.count "cat".toList ["cat".toList] = 1 from rfl]
      rw [show (["cat".toList] : List Str).length = 1 from rfl]
      norm_num
    rw [htf]
    norm_num

/-- The retriever state relevant to lexical scoring: the stored chunks of
the ChromaDB collection and the mutable `self.tfidf_cache`. -/
structure RetrieverState where
  docs : List StoredChunk
  tfidf_cache : IdfCache

/-- `HybridRetriever.clear_collection` (lines 334-341): the collection is
deleted and recreated empty; `self.tfidf_cache` is not touched. -/
def clear_collection (st : RetrieverState) : RetrieverState :=
  { docs := [], tfidf_cache := st.tfidf_cache }

/-- The effect of `add_documents`' `collection.add` calls (lines 131-141)
on the stored chunks: they are appended; the cache is not touched. -/
def addChunks (st : RetrieverState) (cs : List StoredChunk) : RetrieverState :=
  { st with docs := st.docs ++ cs }

/-- The scoring loop of `tfidf_search` (lines 201-211): one `TfResult` per
stored chunk, in order, threading the cache through the successive
`_calculate_tfidf_score` calls. -/
noncomputable def tfidfScoresGo (query_tokens : List Str) (all_docs : List Str) :
    List StoredChunk → IdfCache → List (TfResult ℝ) × IdfCache
  | [], cache => ([], cache)
  | c :: cs, cache =>
      let sc := calculate_tfidf_score query_tokens (tokenize (toLowerStr c.content))
        all_docs cache
      let rest := tfidfScoresGo query_tokens all_docs cs sc.2
      (⟨c.content, c.meta, sc.1⟩ :: rest.1, rest.2)

/-- `HybridRetriever.tfidf_search` (lines 180-215): empty collection gives
an empty result list; otherwise score every chunk, sort descending by
score (Python's stable sort) and truncate to `top_k`. -/
noncomputable def tfidf_search (st : RetrieverState) (query : Str) (top_k : Nat) :
    List (TfResult ℝ) × IdfCache :=
  if st.docs.isEmpty then ([], st.tfidf_cache)
  else
    let query_tokens := tokenize (toLowerStr query)
    let scored := tfidfScoresGo query_tokens (st.docs.map (fun c => c.content))
      st.docs st.tfidf_cache
    ((sortDescBy (fun r => r.tfidf_score) scored.1).take top_k, scored.2)

/-- `HybridRetriever.hybrid_search` (lines 257-323).  The semantic result
list (produced by ChromaDB's vector query, an external collaborator, with
`n_results = top_k * 2`) is passed in; the TF-IDF list is fetched with
`top_k * 2` as in the source, and the two are fused. -/
noncomputable def hybrid_search (sem : List (SemResult ℝ)) (st : RetrieverState)
    (query : Str) (top_k : Nat) (sw lw : ℝ) : List (FinalResult ℝ) :=
  hybridFusion sem (tfidf_search st query (top_k * 2)).1 top_k sw lw

/-- C4 scenario, first snapshot: a single chunk with content `"cat"`. -/
def catChunk : StoredChunk := ⟨"cat".toList, ⟨"r1".toList, 0⟩⟩

/-- C4 scenario, chunk added after the refresh. -/
def dogChunk : StoredChunk := ⟨"dog".toList, ⟨"r2".toList, 0⟩⟩

/-- The cache after querying `"cat"` against the one-chunk corpus. -/
noncomputable def c4CacheAfterFirstQuery : IdfCache :=
  (tfidf_search ⟨[catChunk], []⟩ ("cat".toList) 5).2

/-- The retriever state after `clear_collection` and re-ingestion of the
two-chunk corpus: the old cache is still in place. -/
noncomputable def c4StateAfterRefresh : RetrieverState :=
  addChunks (clear_collection ⟨[catChunk], c4CacheAfterFirstQuery⟩) [catChunk, dogChunk]

/-- C4: `clear_collection` never resets `self.tfidf_cache`.  After
querying `"cat"` on corpus `["cat"]` (caching IDF `ln(2/2) = 0`), clearing
and re-ingesting corpus `["cat", "dog"]`, the next lexical score for chunk
`"cat"` uses the stale cached IDF and is `0`, while the same computation
from a fresh cache gives `ln(3/2) ≠ 0`. -/
theorem C4_stale_idf_cache_survives_clear :
    (clear_collection ⟨[catChunk], c4CacheAfterFirstQuery⟩).tfidf_cache =
      c4CacheAfterFirstQuery ∧
    c4CacheAfterFirstQuery = [("cat".toList, idfValue "cat".toList ["cat".toList])] ∧
    (calculate_tfidf_score (tokenize (toLowerStr "cat".toList))
        (tokenize (toLowerStr "cat".toList))
        (c4StateAfterRefresh.docs.map (fun c => c.content))
        c4StateAfterRefresh.tfidf_cache).1 = 0 ∧
    (calculate_tfidf_score (tokenize (toLowerStr "cat".toList))
        (tokenize (toLowerStr "cat".toList))
        (c4StateAfterRefresh.docs.map (fun c => c.content)) []).1 = Real.log (3 / 2) ∧
    Real.log (3 / 2) ≠ 0 := by
  have hidf1 : idfValue "cat".toList ["cat".toList] = 0 := by
    rw [idfValue]
    rw [show (["cat".toList].countP (fun d => isSubstr "cat".toList (toLowerStr d))) = 1
      from rfl]
    rw [if_pos (by norm_num)]
    norm_num [Real.log_one]
  have htf : termTf "cat".toList ["cat".toList] = 1 := by
    rw [termTf]
    rw [show List.count "cat".toList ["cat".toList] = 1 from rfl]
    rw [show (["cat".toList] : List Str).length = 1 from rfl]
    norm_num
  refine ⟨rfl, rfl, ?_, ?_, ne_of_gt (Real.log_pos (by norm_num))⟩
  · rw [show tokenize (toLowerStr "cat".toList) = ["cat".toList] from rfl]
    rw [show c4StateAfterRefresh.docs.map (fun c => c.content) =
      ["cat".toList, "dog".toList] from rfl]
    rw [show (calculate_tfidf_score ["cat".toList] ["cat".toList]
        ["cat".toList, "dog".toList] c4StateAfterRefresh.tfidf_cache).1 =
      0 + termTf "cat".toList ["cat".toList] * idfValue "cat".toList ["cat".toList]
      from rfl]
    rw [hidf1]
    ring
  · rw [show tokenize (toLowerStr "cat".toList) = ["cat".toList] from rfl]
    rw [show c4StateAfterRefresh.docs.map (fun c => c.content) =
      ["cat".toList, "dog".toList] from rfl]
    rw [show (calculate_tfidf_score ["cat".toList] ["cat".toList]
        ["cat".toList, "dog".toList] []).1 =
      0 + termTf "cat".toList ["cat".toList] *
        idfValue "cat".toList ["cat".toList, "dog".toList] from rfl]
    rw [htf]
    rw [idfValue]
    rw [show (["cat".toList, "dog".toList].countP
      (fun d => isSubstr "cat".toList (toLowerStr d))) = 1 from rfl]
    rw [if_pos (by norm_num)]
    rw [show (["cat".toList, "dog".toList] : List Str).length = 2 from rfl]
    norm_num

/-- `tfidf_search` scores every stored chunk, keeping content and metadata
in order (one result per chunk before sorting). -/
theorem tfidfScoresGo_map_meta (qt docs : List Str) :
    ∀ (cs : List StoredChunk) (cache : IdfCache),
      (tfidfScoresGo qt docs cs cache).1.map (fun r => r.meta) =
        cs.map (fun c => c.meta) := by
  intro cs
  induction cs with
  | nil => intro cache; rfl
  | cons c cs ih =>
      intro cache
      rw [tfidfScoresGo]
      simp only [List.map_cons]
      rw [ih]

/-- C8 scenario: a two-chunk corpus whose distinct identities
`("r1", 11)` and `("r11", 1)` share the merge key `"r111"`. -/
def c8Chunk1 : StoredChunk := ⟨"alpha".toList, ⟨"r1".toList, 11⟩⟩

/-- Second chunk of the C8 scenario. -/
def c8Chunk2 : StoredChunk := ⟨"beta".toList, ⟨"r11".toList, 1⟩⟩

/-- The C8 corpus state: both chunks stored, fresh cache. -/
def c8State : RetrieverState := ⟨[c8Chunk1, c8Chunk2], []⟩

/-- The semantic results the vector index returns for the C8 query: both
stored chunks, with some similarities. -/
noncomputable def c8Sem : List (SemResult ℝ) :=
  [⟨"alpha".toList, ⟨"r1".toList, 11⟩, 9 / 10⟩, ⟨"beta".toList, ⟨"r11".toList, 1⟩, 1 / 2⟩]

/-- C8: querying an empty corpus — here immediately after `clear()` on a
previously non-empty one — returns `[]` and no error (first two
conjuncts; the semantic list is empty because ChromaDB returns nothing
from an empty collection).  But querying the 2-chunk corpus above with
`top_k = 3 > 2` returns 1 result, not 2: the two identities collide on
the concatenated key `"r111"` and are merged. -/
theorem C8_empty_corpus_and_result_count :
    hybrid_search [] (clear_collection ⟨[c8Chunk1], []⟩)
      ("rule".toList) 5 (7 / 10) (3 / 10) = [] ∧
    (tfidf_search (clear_collection ⟨[c8Chunk1], []⟩) ("rule".toList) 5).1 = [] ∧
    c8State.docs.length = 2 ∧
    (⟨"r1".toList, 11⟩ : ChunkMeta) ≠ ⟨"r11".toList, 1⟩ ∧
    (hybrid_search c8Sem c8State ("rule".toList) 3 (7 / 10) (3 / 10)).length = 1 := by
  refine ⟨rfl, rfl, rfl, by decide, ?_⟩
  have hmeta : ∀ r ∈ (tfidf_search c8State ("rule".toList) (3 * 2)).1,
      keyOf r.meta = "r111".toList := by
    intro r hr
    have hopen : (tfidf_search c8State ("rule".toList) (3 * 2)).1 =
        (sortDescBy (fun x : TfResult ℝ => x.tfidf_score)
          (tfidfScoresGo (tokenize (toLowerStr ("rule".toList)))
            (c8State.docs.map (fun c => c.content)) c8State.docs []).1).take (3 * 2) := rfl
    rw [hopen] at hr
    have hr2 := (mem_sortDescBy _).mp (List.mem_of_mem_take hr)
    have hr3 : r.meta ∈ (tfidfScoresGo (tokenize (toLowerStr ("rule".toList)))
        (c8State.docs.map (fun c => c.content)) c8State.docs []).1.map
        (fun x => x.meta) := List.mem_map_of_mem _ hr2
    rw [tfidfScoresGo_map_meta] at hr3
    rw [show c8State.docs.map (fun c => c.meta) =
      [⟨"r1".toList, 11⟩, ⟨"r11".toList, 1⟩] from rfl] at hr3
    rcases List.mem_cons.mp hr3 with h | h
    · rw [h]; decide
    · rw [List.mem_singleton.mp h]; decide
  have hkeys : (combineResults c8Sem
      (tfidf_search c8State ("rule".toList) (3 * 2)).1).map Prod.fst =
      ["r111".toList] := by
    rw [combineResults_keys]
    refine firstOccur_const _ _ ?_ ?_
    · intro h
      rw [show c8Sem.map (fun r => keyOf r.meta) =
        ["r111".toList, "r111".toList] from rfl] at h
      exact absurd h (by simp)
    · intro k hk
      rcases List.mem_append.mp hk with h | h
      · rw [show c8Sem.map (fun r => keyOf r.meta) =
          ["r111".toList, "r111".toList] from rfl] at h
        rcases List.mem_cons.mp h with h | h
        · exact h
        · exact List.mem_singleton.mp h
      · rcases List.mem_map.mp h with ⟨r, hr, hrk⟩
        rw [← hrk]
        exact hmeta r hr
  have hclen : (combineResults c8Sem
      (tfidf_search c8State ("rule".toList) (3 * 2)).1).length = 1 := by
    have := congrArg List.length hkeys
    rw [List.length_map] at this
    simpa using this
  rw [hybrid_search, hybridFusion, List.length_take, sortDescBy_length]
  rw [finalize, List.length_map, hclen]
  norm_num

/-- `np.dot` on two 1-D arrays of equal length (the length guard lives in
`cosine_similarity`): sum of pointwise products. -/
noncomputable def dotProduct (v w : List ℝ) : ℝ :=
  ((v.zip w).map (fun p => p.1 * p.2)).sum

/-- `np.linalg.norm`: the Euclidean norm, `sqrt` of the sum of squares. -/
noncomputable def vecNorm (v : List ℝ) : ℝ :=
  Real.sqrt ((v.map (fun x => x * x)).sum)

/-- `EmbeddingService.cosine_similarity` (src/rag/embeddings.py lines
185-207): `np.dot` raises on 1-D shape mismatch (modelled `none`);
otherwise `0.0` when either norm is zero, else the dot product over the
product of norms. -/
noncomputable def cosine_similarity (v w : List ℝ) : Option ℝ :=
  if v.length = w.length then
    if vecNorm v = 0 ∨ vecNorm w = 0 then some 0
    else some (dotProduct v w / (vecNorm v * vecNorm w))
  else none

/-- C10: for equal-length vectors the similarity never divides by zero:
either norm zero gives exactly `0.0`, and otherwise the result is the dot
product divided by the product of the norms, whose denominator is
non-zero. -/
theorem C10_cosine_similarity_no_div_by_zero (v w : List ℝ)
    (h : v.length = w.length) :
    (vecNorm v = 0 ∨ vecNorm w = 0 → cosine_similarity v w = some 0) ∧
    (vecNorm v ≠ 0 → vecNorm w ≠ 0 →
      cosine_similarity v w = some (dotProduct v w / (vecNorm v * vecNorm w)) ∧
      vecNorm v * vecNorm w ≠ 0) := by
  rw [cosine_similarity, if_pos h]
  constructor
  · intro h0
    rw [if_pos h0]
  · intro h1 h2
    rw [if_neg (by rw [not_or]; exact ⟨h1, h2⟩)]
    exact ⟨rfl, mul_ne_zero h1 h2⟩

/-- Witness for C10 at the concrete one-dimensional vectors `[1]`, `[1]`:
both norms are `1 ≠ 0` and the guard takes the division branch. -/
theorem C10_cosine_similarity_witness :
    vecNorm [(1 : ℝ)] ≠ 0 ∧
    cosine_similarity [(1 : ℝ)] [(1 : ℝ)] =
      some (dotProduct [(1 : ℝ)] [(1 : ℝ)] / (vecNorm [(1 : ℝ)] * vecNorm [(1 : ℝ)])) := by
  have hn : vecNorm [(1 : ℝ)] ≠ 0 := by
    rw [vecNorm]
    norm_num
  exact ⟨hn, ((C10_cosine_similarity_no_div_by_zero [(1 : ℝ)] [(1 : ℝ)] rfl).2 hn hn).1⟩

end GolfRQA
